import Mathlib

/-!
Shallow embedding of the Crescendo habit tracker (Go) core logic.

Dates are modelled at calendar-day granularity as integers (a day index);
this matches the Go code, which works exclusively on `YYYY-MM-DD` strings
parsed at midnight, so `DaysBetween` is an exact day difference.  The Go
`map[string]DayRecord` is modelled as an association list keyed by the day
index.  Functions that in Go mutate state through pointers are modelled as
state-passing functions; the wall clock (`Today()` / `Yesterday()` /
`time.Now()`) is passed in explicitly as a `today` (or `yesterday`)
parameter.
-/

namespace Crescendo

/-- Go `Habit` from models.go: ID, Name, Quantity, Unit, CreatedAt.
`createdAt` (a `time.Time` in Go) is modelled as an integer timestamp. -/
structure Habit where
  id : Int
  name : String
  quantity : Int
  unit : String
  createdAt : Int
deriving DecidableEq

/-- Go `DayRecord` from models.go. Go nil slices are modelled as `[]`. -/
structure DayRecord where
  date : Int
  completedHabits : List Int
  weekReviewDone : Bool
  penaltyAppliedForHabits : List Int
deriving DecidableEq

/-- Go `AppData` from models.go (the root persisted aggregate); the `History`
map is an association list from day index to `DayRecord`, and the two
date-string fields use `none` for the Go empty string "". -/
structure AppData where
  habits : List Habit
  history : List (Int × DayRecord)
  lastWeekReview : Option Int
  createdAt : Option Int
deriving DecidableEq

/-- Reading `data.History[key]`: first matching key, `none` when absent. -/
def histGet (h : List (Int × DayRecord)) (d : Int) : Option DayRecord :=
  (h.find? (fun p => p.1 == d)).map Prod.snd

/-- Writing `data.History[key] = r`: replace the first binding or append. -/
def histSet : List (Int × DayRecord) → Int → DayRecord → List (Int × DayRecord)
  | [], d, r => [(d, r)]
  | p :: t, d, r => if p.1 == d then (d, r) :: t else p :: histSet t d r

/-- The zero `DayRecord{Date: d}` the Go code builds for an absent day. -/
def freshRec (d : Int) : DayRecord :=
  { date := d, completedHabits := [], weekReviewDone := false, penaltyAppliedForHabits := [] }

/-- Go `containsInt` from logic.go: linear membership scan. -/
def containsInt : List Int → Int → Bool
  | [], _ => false
  | v :: t, id => if v == id then true else containsInt t id

/-- Go `DaysBetween` from logic.go: exact day difference `end - start`,
negative results clamped to 0 (both dates are well-formed in the model,
so the parse-error path cannot occur). -/
def DaysBetween (s e : Int) : Int :=
  let days := e - s
  if days < 0 then 0 else days

/-- Go `ApplyMissPenalty` from logic.go: quantity <= 1 is a no-op, >= 3
subtracts 2, otherwise (quantity 2) subtracts 1. -/
def ApplyMissPenalty (h : Habit) : Habit :=
  if h.quantity ≤ 1 then h
  else if h.quantity ≥ 3 then { h with quantity := h.quantity - 2 }
  else { h with quantity := h.quantity - 1 }

/-- C1: one `ApplyMissPenalty` call is a no-op for quantity ≤ 1, subtracts 2
for quantity ≥ 3, subtracts 1 for quantity = 2; for starting quantities
5,4,3,2,1 it yields 3,2,1,1,1; and from any quantity ≥ 1 the result stays ≥ 1. -/
theorem applyMissPenalty_spec (h : Habit) :
    (h.quantity ≤ 1 → ApplyMissPenalty h = h) ∧
    (3 ≤ h.quantity → (ApplyMissPenalty h).quantity = h.quantity - 2) ∧
    (h.quantity = 2 → (ApplyMissPenalty h).quantity = h.quantity - 1) ∧
    (1 ≤ h.quantity → 1 ≤ (ApplyMissPenalty h).quantity) ∧
    (ApplyMissPenalty { h with quantity := 5 }).quantity = 3 ∧
    (ApplyMissPenalty { h with quantity := 4 }).quantity = 2 ∧
    (ApplyMissPenalty { h with quantity := 3 }).quantity = 1 ∧
    (ApplyMissPenalty { h with quantity := 2 }).quantity = 1 ∧
    (ApplyMissPenalty { h with quantity := 1 }).quantity = 1 := by
  unfold ApplyMissPenalty
  refine ⟨?_, ?_, ?_, ?_, ?_, ?_, ?_, ?_, ?_⟩ <;> try (intro hq)
  all_goals split_ifs <;> first | rfl | (simp_all; try omega) | omega

/-- Witness for C1 at the concrete quantity 2. -/
theorem applyMissPenalty_spec_witness :
    (ApplyMissPenalty { id := 1, name := "a", quantity := 2, unit := "u", createdAt := 0 }).quantity
      = 2 - 1 :=
  (applyMissPenalty_spec { id := 1, name := "a", quantity := 2, unit := "u", createdAt := 0 }).2.2.1 rfl

/-- Go `GetOrSetLastWeekReview` from logic.go: `LastWeekReview` if set, else
`CreatedAt` if set, else the date 7 days before now. -/
def GetOrSetLastWeekReview (today : Int) (data : AppData) : Int :=
  match data.lastWeekReview with
  | some x => x
  | none =>
    match data.createdAt with
    | some c => c
    | none => today - 7

/-- Go `NeedsWeekReview` from logic.go: 7 or more days since the last review
anchor.  The Go error path (malformed date string) cannot occur in the
day-index model, so the function returns the boolean directly. -/
def NeedsWeekReview (today : Int) (data : AppData) : Bool :=
  DaysBetween (GetOrSetLastWeekReview today data) today ≥ 7

/-- Go `CompleteWeekReview` from logic.go: increment every habit's quantity by 1
and set `LastWeekReview` to today. -/
def CompleteWeekReview (today : Int) (data : AppData) : AppData :=
  { data with
    habits := data.habits.map (fun h => { h with quantity := h.quantity + 1 }),
    lastWeekReview := some today }

/-- C3: `NeedsWeekReview` is true iff `DaysBetween anchor today ≥ 7`, where
the anchor is `lastWeekReview` if set, else `createdAt` if set, else
`today - 7`; an anchor exactly 6 days back gives false, exactly 7 gives true. -/
theorem needsWeekReview_spec (today : Int) (data : AppData) :
    (NeedsWeekReview today data = true ↔
      7 ≤ DaysBetween (GetOrSetLastWeekReview today data) today) ∧
    (∀ x, data.lastWeekReview = some x → GetOrSetLastWeekReview today data = x) ∧
    (∀ c, data.lastWeekReview = none → data.createdAt = some c →
      GetOrSetLastWeekReview today data = c) ∧
    (data.lastWeekReview = none → data.createdAt = none →
      GetOrSetLastWeekReview today data = today - 7) ∧
    (GetOrSetLastWeekReview today data = today - 6 → NeedsWeekReview today data = false) ∧
    (GetOrSetLastWeekReview today data = today - 7 → NeedsWeekReview today data = true) := by
  refine ⟨?_, ?_, ?_, ?_, ?_, ?_⟩
  · simp [NeedsWeekReview]
  · intro x hx; simp [GetOrSetLastWeekReview, hx]
  · intro c h1 h2; simp [GetOrSetLastWeekReview, h1, h2]
  · intro h1 h2; simp [GetOrSetLastWeekReview, h1, h2]
  · intro ha
    simp [NeedsWeekReview, ha, DaysBetween]
  · intro ha
    simp [NeedsWeekReview, ha, DaysBetween]

/-- A concrete store whose review anchor is day 3. -/
def anchoredAppData : AppData :=
  { habits := [], history := [], lastWeekReview := some 3, createdAt := none }

/-- Witness for C3 on a concrete store whose anchor is 7 days old. -/
theorem needsWeekReview_spec_witness :
    NeedsWeekReview 10 anchoredAppData = true :=
  (needsWeekReview_spec 10 anchoredAppData).2.2.2.2.2 rfl

/-- The fresh `AppData` produced on first run (storage.go): empty lists and
both date fields unset. -/
def emptyAppData : AppData :=
  { habits := [], history := [], lastWeekReview := none, createdAt := none }

/-- Counterexample to C4: with neither `lastWeekReview` nor `createdAt` set,
`NeedsWeekReview` returns true, not false — the fallback anchor is exactly 7
days back and the threshold `days >= 7` is inclusive. -/
theorem needsWeekReview_unset_counterexample :
    NeedsWeekReview 0 emptyAppData = true := by decide

/-- C4 (amended): with neither anchor field set, `NeedsWeekReview` returns
true — a store with an undefined anchor starts review-due. -/
theorem needsWeekReview_unset_amended (today : Int) (data : AppData)
    (h1 : data.lastWeekReview = none) (h2 : data.createdAt = none) :
    NeedsWeekReview today data = true := by
  simp [NeedsWeekReview, GetOrSetLastWeekReview, h1, h2, DaysBetween]

/-- Witness for amended C4 on the fresh store. -/
theorem needsWeekReview_unset_amended_witness :
    NeedsWeekReview 5 emptyAppData = true :=
  needsWeekReview_unset_amended 5 emptyAppData rfl rfl

/-- C5: `CompleteWeekReview` increments every habit's quantity by exactly 1,
leaves all other habit fields and all other `AppData` fields unchanged, sets
`lastWeekReview` to today, and `NeedsWeekReview` immediately after is false. -/
theorem completeWeekReview_spec (today : Int) (data : AppData) :
    (CompleteWeekReview today data).habits.length = data.habits.length ∧
    (∀ i : Nat, ∀ hi : i < data.habits.length,
      ((CompleteWeekReview today data).habits.get
          ⟨i, by simpa [CompleteWeekReview] using hi⟩).quantity
        = (data.habits.get ⟨i, hi⟩).quantity + 1 ∧
      ((CompleteWeekReview today data).habits.get
          ⟨i, by simpa [CompleteWeekReview] using hi⟩).id = (data.habits.get ⟨i, hi⟩).id ∧
      ((CompleteWeekReview today data).habits.get
          ⟨i, by simpa [CompleteWeekReview] using hi⟩).name = (data.habits.get ⟨i, hi⟩).name ∧
      ((CompleteWeekReview today data).habits.get
          ⟨i, by simpa [CompleteWeekReview] using hi⟩).unit = (data.habits.get ⟨i, hi⟩).unit ∧
      ((CompleteWeekReview today data).habits.get
          ⟨i, by simpa [CompleteWeekReview] using hi⟩).createdAt
        = (data.habits.get ⟨i, hi⟩).createdAt) ∧
    (CompleteWeekReview today data).history = data.history ∧
    (CompleteWeekReview today data).createdAt = data.createdAt ∧
    (CompleteWeekReview today data).lastWeekReview = some today ∧
    NeedsWeekReview today (CompleteWeekReview today data) = false := by
  refine ⟨by simp [CompleteWeekReview], ?_, rfl, rfl, rfl, ?_⟩
  · intro i hi
    simp [CompleteWeekReview]
  · simp [NeedsWeekReview, CompleteWeekReview, GetOrSetLastWeekReview, DaysBetween]

/-- A concrete one-habit store used by several witnesses. -/
def oneHabitAppData : AppData :=
  { habits := [{ id := 1, name := "a", quantity := 2, unit := "u", createdAt := 0 }],
    history := [], lastWeekReview := none, createdAt := none }

/-- Witness for C5 on a concrete one-habit store. -/
theorem completeWeekReview_spec_witness :
    ((CompleteWeekReview 4 oneHabitAppData).habits.get
        ⟨0, by simpa [CompleteWeekReview] using (by decide : (0:Nat) < oneHabitAppData.habits.length)⟩).quantity
      = (oneHabitAppData.habits.get ⟨0, by decide⟩).quantity + 1 :=
  ((completeWeekReview_spec 4 oneHabitAppData).2.1 0 (by decide)).1

/-- The `DayRecord` the Go code reads for a given day: the stored record, or
the zero record `DayRecord{Date: d}` when the day is absent from `History`. -/
def dayRecFor (data : AppData) (d : Int) : DayRecord :=
  (histGet data.history d).getD (freshRec d)

/-- The loop condition of `ProcessYesterdayMisses`:
`!completed && !alreadyApplied` for a habit against a day's record. -/
def missQualifies (dr : DayRecord) (h : Habit) : Bool :=
  !(containsInt dr.completedHabits h.id) && !(containsInt dr.penaltyAppliedForHabits h.id)

/-- The `for i := range data.Habits` loop body of `ProcessYesterdayMisses`,
threading the day record and the `changed` flag exactly as the Go loop does:
a qualifying habit is penalized and its id appended to
`penaltyAppliedForHabits`; the flag records whether any habit was penalized. -/
def processMissesLoop : DayRecord → List Habit → List Habit × DayRecord × Bool
  | dr, [] => ([], dr, false)
  | dr, h :: t =>
    if missQualifies dr h then
      let dr2 := { dr with penaltyAppliedForHabits := dr.penaltyAppliedForHabits ++ [h.id] }
      let res := processMissesLoop dr2 t
      (ApplyMissPenalty h :: res.1, res.2.1, true)
    else
      let res := processMissesLoop dr t
      (h :: res.1, res.2.1, res.2.2)

/-- Go `ProcessYesterdayMisses` from logic.go: read (or create) yesterday's
record, penalize every habit neither completed nor already penalized for
yesterday, and write the record back only when something changed.
(The Go nil-slice normalization of `PenaltyAppliedForHabits` is the identity
in the list model.) -/
def ProcessYesterdayMisses (yesterday : Int) (data : AppData) : AppData :=
  let res := processMissesLoop (dayRecFor data yesterday) data.habits
  { data with
    habits := res.1,
    history := if res.2.2 then histSet data.history yesterday res.2.1 else data.history }

/-- A day record with extra ids appended to its applied-penalty set. -/
def addPenalties (dr : DayRecord) (ids : List Int) : DayRecord :=
  { dr with penaltyAppliedForHabits := dr.penaltyAppliedForHabits ++ ids }

theorem containsInt_iff (l : List Int) (x : Int) : containsInt l x = true ↔ x ∈ l := by
  induction l with
  | nil => simp [containsInt]
  | cons v t ih =>
    by_cases hv : v = x
    · simp [containsInt, hv]
    · have : (v == x) = false := by simp [hv]
      simp [containsInt, this, ih, hv, Ne.symm hv]

theorem containsInt_append (a b : List Int) (x : Int) :
    containsInt (a ++ b) x = (containsInt a x || containsInt b x) := by
  induction a with
  | nil => simp [containsInt]
  | cons v t ih =>
    by_cases hv : v = x
    · simp [containsInt, hv]
    · have : (v == x) = false := by simp [hv]
      simp [containsInt, this, ih]

theorem applyMissPenalty_id (h : Habit) : (ApplyMissPenalty h).id = h.id := by
  unfold ApplyMissPenalty
  split_ifs <;> rfl

theorem addPenalties_nil (dr : DayRecord) : addPenalties dr [] = dr := by
  simp [addPenalties]

theorem addPenalties_append (dr : DayRecord) (e1 e2 : List Int) :
    addPenalties (addPenalties dr e1) e2 = addPenalties dr (e1 ++ e2) := by
  simp [addPenalties]

theorem missQualifies_addPenalties (dr : DayRecord) (e : List Int) (h : Habit)
    (he : containsInt e h.id = false) :
    missQualifies (addPenalties dr e) h = missQualifies dr h := by
  simp [missQualifies, addPenalties, containsInt_append, he]

theorem processMissesLoop_characterization (hs : List Habit) (dr0 : DayRecord)
    (extra : List Int)
    (hnd : (hs.map Habit.id).Nodup)
    (hx : ∀ h ∈ hs, containsInt extra h.id = false) :
    processMissesLoop (addPenalties dr0 extra) hs
      = (hs.map (fun h => if missQualifies dr0 h then ApplyMissPenalty h else h),
         addPenalties dr0 (extra ++ (hs.filter (missQualifies dr0)).map Habit.id),
         hs.any (missQualifies dr0)) := by
  induction hs generalizing extra with
  | nil => simp [processMissesLoop]
  | cons h t ih =>
    have hxh : containsInt extra h.id = false := hx h (List.mem_cons_self h t)
    have hq : missQualifies (addPenalties dr0 extra) h = missQualifies dr0 h :=
      missQualifies_addPenalties dr0 extra h hxh
    have hndt : (t.map Habit.id).Nodup := (List.nodup_cons.1 hnd).2
    have hhid : h.id ∉ t.map Habit.id := (List.nodup_cons.1 hnd).1
    by_cases hc : missQualifies dr0 h = true
    · have hx2 : ∀ h2 ∈ t, containsInt (extra ++ [h.id]) h2.id = false := by
        intro h2 h2t
        rw [containsInt_append, hx h2 (List.mem_cons_of_mem h h2t)]
        have hne : h2.id ≠ h.id := by
          intro heq
          exact hhid (heq ▸ List.mem_map_of_mem Habit.id h2t)
        have hne2 : h.id ≠ h2.id := fun heq => hne heq.symm
        simp [containsInt, hne2]
      have step : { addPenalties dr0 extra with
          penaltyAppliedForHabits := (addPenalties dr0 extra).penaltyAppliedForHabits ++ [h.id] }
            = addPenalties dr0 (extra ++ [h.id]) := by
        simp [addPenalties]
      rw [show processMissesLoop (addPenalties dr0 extra) (h :: t)
            = (ApplyMissPenalty h ::
                (processMissesLoop (addPenalties dr0 (extra ++ [h.id])) t).1,
               (processMissesLoop (addPenalties dr0 (extra ++ [h.id])) t).2.1,
               true) by
        simp only [processMissesLoop, hq, hc, if_true, step]]
      rw [ih (extra ++ [h.id]) hndt hx2]
      simp [hc, List.append_assoc]
    · have hcf : missQualifies dr0 h = false := Bool.eq_false_iff.2 hc
      rw [show processMissesLoop (addPenalties dr0 extra) (h :: t)
            = (h :: (processMissesLoop (addPenalties dr0 extra) t).1,
               (processMissesLoop (addPenalties dr0 extra) t).2.1,
               (processMissesLoop (addPenalties dr0 extra) t).2.2) by
        simp only [processMissesLoop, hq, hcf, Bool.false_eq_true, if_false]]
      rw [ih extra hndt (fun h2 h2t => hx h2 (List.mem_cons_of_mem h h2t))]
      simp [hcf]

theorem processMissesLoop_shape (dr : DayRecord) (hs : List Habit) :
    ∃ ext, (processMissesLoop dr hs).2.1 = addPenalties dr ext := by
  induction hs generalizing dr with
  | nil => exact ⟨[], by simp [processMissesLoop, addPenalties_nil]⟩
  | cons h t ih =>
    by_cases hc : missQualifies dr h = true
    · obtain ⟨ext, hext⟩ :=
        ih { dr with penaltyAppliedForHabits := dr.penaltyAppliedForHabits ++ [h.id] }
      refine ⟨[h.id] ++ ext, ?_⟩
      have : ({ dr with penaltyAppliedForHabits := dr.penaltyAppliedForHabits ++ [h.id] })
          = addPenalties dr [h.id] := rfl
      simp only [processMissesLoop, hc, if_true]
      rw [this] at hext
      rw [this, hext, addPenalties_append]
    · have hcf : missQualifies dr h = false := Bool.eq_false_iff.2 hc
      obtain ⟨ext, hext⟩ := ih dr
      refine ⟨ext, ?_⟩
      simp only [processMissesLoop, hcf, Bool.false_eq_true, if_false]
      exact hext

theorem missQualifies_false_addPenalties (dr : DayRecord) (e : List Int) (h : Habit)
    (hf : missQualifies dr h = false) :
    missQualifies (addPenalties dr e) h = false := by
  unfold missQualifies at hf ⊢
  simp only [addPenalties, containsInt_append]
  by_cases hcc : containsInt dr.completedHabits h.id = true
  · simp [hcc]
  · have hcc2 : containsInt dr.completedHabits h.id = false := Bool.eq_false_iff.2 hcc
    by_cases hpp : containsInt dr.penaltyAppliedForHabits h.id = true
    · simp [hpp]
    · rw [hcc2, Bool.eq_false_iff.2 hpp] at hf
      simp at hf

theorem processMissesLoop_covered (dr : DayRecord) (hs : List Habit) :
    ∀ h2 ∈ (processMissesLoop dr hs).1,
      missQualifies (processMissesLoop dr hs).2.1 h2 = false := by
  induction hs generalizing dr with
  | nil => simp [processMissesLoop]
  | cons h t ih =>
    by_cases hc : missQualifies dr h = true
    · set dr2 : DayRecord :=
        { dr with penaltyAppliedForHabits := dr.penaltyAppliedForHabits ++ [h.id] } with hdr2
      intro h2 h2mem
      have hres : processMissesLoop dr (h :: t)
          = (ApplyMissPenalty h :: (processMissesLoop dr2 t).1,
             (processMissesLoop dr2 t).2.1, true) := by
        simp only [processMissesLoop, hc, if_true]
      rw [hres] at h2mem ⊢
      rcases List.mem_cons.1 h2mem with h2eq | h2mem2
      · subst h2eq
        obtain ⟨ext, hext⟩ := processMissesLoop_shape dr2 t
        have hin : containsInt (processMissesLoop dr2 t).2.1.penaltyAppliedForHabits
            (ApplyMissPenalty h).id = true := by
          rw [hext]
          simp only [addPenalties, applyMissPenalty_id, hdr2]
          rw [containsInt_append, containsInt_append]
          have : containsInt [h.id] h.id = true := by simp [containsInt]
          simp [this]
        simp [missQualifies, hin]
      · exact ih dr2 h2 h2mem2
    · have hcf : missQualifies dr h = false := Bool.eq_false_iff.2 hc
      intro h2 h2mem
      have hres : processMissesLoop dr (h :: t)
          = (h :: (processMissesLoop dr t).1,
             (processMissesLoop dr t).2.1, (processMissesLoop dr t).2.2) := by
        simp only [processMissesLoop, hcf, Bool.false_eq_true, if_false]
      rw [hres] at h2mem ⊢
      rcases List.mem_cons.1 h2mem with h2eq | h2mem2
      · subst h2eq
        obtain ⟨ext, hext⟩ := processMissesLoop_shape dr t
        rw [hext]
        exact missQualifies_false_addPenalties dr ext h2 hcf
      · exact ih dr h2 h2mem2

theorem processMissesLoop_skip (dr : DayRecord) (hs : List Habit)
    (hall : ∀ h2 ∈ hs, missQualifies dr h2 = false) :
    processMissesLoop dr hs = (hs, dr, false) := by
  induction hs with
  | nil => simp [processMissesLoop]
  | cons h t ih =>
    have hcf : missQualifies dr h = false := hall h (List.mem_cons_self h t)
    have ht : processMissesLoop dr t = (t, dr, false) :=
      ih (fun h2 h2t => hall h2 (List.mem_cons_of_mem h h2t))
    simp only [processMissesLoop, hcf, Bool.false_eq_true, if_false, ht]

theorem processMissesLoop_unchanged (dr : DayRecord) (hs : List Habit)
    (hch : (processMissesLoop dr hs).2.2 = false) :
    (processMissesLoop dr hs).1 = hs ∧ (processMissesLoop dr hs).2.1 = dr := by
  induction hs generalizing dr with
  | nil => simp [processMissesLoop]
  | cons h t ih =>
    by_cases hc : missQualifies dr h = true
    · exfalso
      have : (processMissesLoop dr (h :: t)).2.2 = true := by
        simp only [processMissesLoop, hc, if_true]
      rw [this] at hch
      simp at hch
    · have hcf : missQualifies dr h = false := Bool.eq_false_iff.2 hc
      have hres : processMissesLoop dr (h :: t)
          = (h :: (processMissesLoop dr t).1,
             (processMissesLoop dr t).2.1, (processMissesLoop dr t).2.2) := by
        simp only [processMissesLoop, hcf, Bool.false_eq_true, if_false]
      rw [hres] at hch ⊢
      obtain ⟨h1, h2⟩ := ih dr hch
      exact ⟨by rw [h1], h2⟩

theorem histGet_histSet (h : List (Int × DayRecord)) (d : Int) (r : DayRecord) :
    histGet (histSet h d r) d = some r := by
  induction h with
  | nil => simp [histGet, histSet]
  | cons p t ih =>
    by_cases hp : p.1 = d
    · simp [histGet, histSet, hp]
    · have hp2 : (p.1 == d) = false := by simp [hp]
      simp only [histSet, hp2, Bool.false_eq_true, if_false]
      simp only [histGet, List.find?, hp2]
      exact ih

theorem processYesterdayMisses_eq (yd : Int) (data : AppData) :
    ProcessYesterdayMisses yd data
      = { data with
          habits := (processMissesLoop (dayRecFor data yd) data.habits).1,
          history :=
            if (processMissesLoop (dayRecFor data yd) data.habits).2.2 then
              histSet data.history yd (processMissesLoop (dayRecFor data yd) data.habits).2.1
            else data.history } := rfl

/-- C2: when habit ids are distinct (the documented id-uniqueness invariant),
`ProcessYesterdayMisses` penalizes exactly the habits that are neither in
yesterday's completed set nor in yesterday's applied-penalty set, appends
exactly those habits' ids to yesterday's applied-penalty set, and the
operation is idempotent for the same "yesterday". -/
theorem processYesterdayMisses_spec (yd : Int) (data : AppData) :
    ((data.habits.map Habit.id).Nodup →
      (ProcessYesterdayMisses yd data).habits
        = data.habits.map (fun h =>
            if missQualifies (dayRecFor data yd) h then ApplyMissPenalty h else h) ∧
      (dayRecFor (ProcessYesterdayMisses yd data) yd).penaltyAppliedForHabits
        = (dayRecFor data yd).penaltyAppliedForHabits
          ++ (data.habits.filter (missQualifies (dayRecFor data yd))).map Habit.id) ∧
    ProcessYesterdayMisses yd (ProcessYesterdayMisses yd data) = ProcessYesterdayMisses yd data := by
  constructor
  · intro hnd
    have hbase : addPenalties (dayRecFor data yd) [] = dayRecFor data yd :=
      addPenalties_nil _
    have hchar := processMissesLoop_characterization data.habits (dayRecFor data yd) []
      hnd (fun h _ => rfl)
    rw [hbase] at hchar
    simp only [List.nil_append] at hchar
    constructor
    · rw [processYesterdayMisses_eq, hchar]
    · rw [processYesterdayMisses_eq, hchar]
      by_cases hany : data.habits.any (missQualifies (dayRecFor data yd)) = true
      · simp only [hany, if_true]
        unfold dayRecFor
        rw [histGet_histSet]
        simp [addPenalties]
      · have hany2 : data.habits.any (missQualifies (dayRecFor data yd)) = false :=
          Bool.eq_false_iff.2 hany
        have hfilt : data.habits.filter (missQualifies (dayRecFor data yd)) = [] := by
          rw [List.filter_eq_nil_iff]
          intro h hmem
          have := List.any_eq_false.1 hany2 h hmem
          simpa using this
        simp only [hany2, Bool.false_eq_true, if_false, hfilt, List.map_nil,
          List.append_nil]
        rfl
  · by_cases hch : (processMissesLoop (dayRecFor data yd) data.habits).2.2 = true
    · have hd1 : ProcessYesterdayMisses yd data
          = { data with
              habits := (processMissesLoop (dayRecFor data yd) data.habits).1,
              history := histSet data.history yd
                (processMissesLoop (dayRecFor data yd) data.habits).2.1 } := by
        rw [processYesterdayMisses_eq, hch]
        simp
      have hrec1 : dayRecFor (ProcessYesterdayMisses yd data) yd
          = (processMissesLoop (dayRecFor data yd) data.habits).2.1 := by
        rw [hd1]
        unfold dayRecFor
        simp only
        rw [histGet_histSet]
        rfl
      have hskip : processMissesLoop
          (processMissesLoop (dayRecFor data yd) data.habits).2.1
          (processMissesLoop (dayRecFor data yd) data.habits).1
            = ((processMissesLoop (dayRecFor data yd) data.habits).1,
               (processMissesLoop (dayRecFor data yd) data.habits).2.1, false) :=
        processMissesLoop_skip _ _ (processMissesLoop_covered (dayRecFor data yd) data.habits)
      rw [processYesterdayMisses_eq yd (ProcessYesterdayMisses yd data), hrec1]
      rw [hd1]
      simp [hskip]
    · have hch2 : (processMissesLoop (dayRecFor data yd) data.habits).2.2 = false :=
        Bool.eq_false_iff.2 hch
      obtain ⟨hu1, _⟩ := processMissesLoop_unchanged (dayRecFor data yd) data.habits hch2
      have hfix : ProcessYesterdayMisses yd data = data := by
        rw [processYesterdayMisses_eq, hch2, hu1]
        simp
      rw [hfix]
      exact hfix

/-- Witness for C2 on a concrete one-habit store with empty history. -/
theorem processYesterdayMisses_spec_witness :
    (ProcessYesterdayMisses 0 oneHabitAppData).habits
      = oneHabitAppData.habits.map (fun h =>
          if missQualifies (dayRecFor oneHabitAppData 0) h then ApplyMissPenalty h else h) :=
  ((processYesterdayMisses_spec 0 oneHabitAppData).1 (by decide)).1

/-- Go `FindHabitByID` from logic.go: linear scan for the first habit with the
given id. -/
def FindHabitByID (data : AppData) (id : Int) : Option Habit :=
  data.habits.find? (fun h => h.id == id)

/-- Go `HandleCompleteHabit` from handlers.go, state transition only: when the
habit exists, toggle its id in today's record — the `uncomplete` action
removes the id (keeping order), the default action appends it when absent —
and write the record back; when the habit does not exist the state is
unchanged (the handler redirects with an error). -/
def HandleCompleteHabit (today habitID : Int) (uncomplete : Bool) (data : AppData) : AppData :=
  if (FindHabitByID data habitID).isNone then data
  else
    let dr1 := { dayRecFor data today with date := today }
    let dr2 :=
      if uncomplete then
        { dr1 with completedHabits := dr1.completedHabits.filter (fun id => id != habitID) }
      else if containsInt dr1.completedHabits habitID then dr1
      else { dr1 with completedHabits := dr1.completedHabits ++ [habitID] }
    { data with history := histSet data.history today dr2 }

/-- The completed set stored for a day (empty when the day is absent). -/
def completedSetOn (data : AppData) (d : Int) : List Int :=
  (dayRecFor data d).completedHabits

/-- A day-0 record already listing habit 1 as completed. -/
def day0CompletedRec : DayRecord :=
  { date := 0, completedHabits := [1], weekReviewDone := false,
    penaltyAppliedForHabits := [] }

/-- A store with one habit whose id is already in today's (day 0) completed
set. -/
def completedOneAppData : AppData :=
  { habits := [{ id := 1, name := "a", quantity := 5, unit := "u", createdAt := 0 }],
    history := [(0, day0CompletedRec)], lastWeekReview := none, createdAt := none }

/-- Counterexample to C6: when the habit id is already in today's completed
set, completing (a no-op) and then uncompleting removes the id, so the set
does not return to its original contents: it goes from `[1]` to `[]`. -/
theorem completeThenUncomplete_counterexample :
    completedSetOn (HandleCompleteHabit 0 1 true
        (HandleCompleteHabit 0 1 false completedOneAppData)) 0
      ≠ completedSetOn completedOneAppData 0 := by
  intro h
  rw [show completedSetOn (HandleCompleteHabit 0 1 true
      (HandleCompleteHabit 0 1 false completedOneAppData)) 0 = [] from rfl] at h
  rw [show completedSetOn completedOneAppData 0 = [1] from rfl] at h
  exact absurd h (by simp)

theorem filter_ne_of_not_containsInt (l : List Int) (x : Int)
    (h : containsInt l x = false) : l.filter (fun id => id != x) = l := by
  induction l with
  | nil => rfl
  | cons v t ih =>
    cases hbv : (v == x) with
    | true => simp [containsInt, hbv] at h
    | false =>
      simp only [containsInt, hbv, Bool.false_eq_true, if_false] at h
      have hvne : (v != x) = true := by simp [bne, hbv]
      simp [List.filter_cons, hvne, ih h]

/-- The record the complete action writes when the id is absent from
today's completed set. -/
def completeRecOf (data : AppData) (today habitID : Int) : DayRecord :=
  { dayRecFor data today with
    date := today,
    completedHabits := (dayRecFor data today).completedHabits ++ [habitID] }

/-- The record the uncomplete action writes. -/
def uncompleteRecOf (data : AppData) (today habitID : Int) : DayRecord :=
  { dayRecFor data today with
    date := today,
    completedHabits := (dayRecFor data today).completedHabits.filter (fun id => id != habitID) }

/-- Replacing one day's record in the store. -/
def setHist (data : AppData) (day : Int) (dr : DayRecord) : AppData :=
  { data with history := histSet data.history day dr }

theorem dayRecFor_setHist (data : AppData) (day : Int) (dr : DayRecord) :
    dayRecFor (setHist data day dr) day = dr := by
  unfold dayRecFor setHist
  simp only
  rw [histGet_histSet]
  rfl

theorem findHabit_setHist (data : AppData) (day : Int) (dr : DayRecord) (id : Int) :
    FindHabitByID (setHist data day dr) id = FindHabitByID data id := rfl

theorem handleComplete_found_eq (today habitID : Int) (data : AppData)
    (hf : (FindHabitByID data habitID).isNone = false)
    (hnotin : containsInt (dayRecFor data today).completedHabits habitID = false) :
    HandleCompleteHabit today habitID false data
      = setHist data today (completeRecOf data today habitID) := by
  unfold HandleCompleteHabit
  rw [if_neg (by rw [hf]; simp)]
  have hcc : containsInt ({ dayRecFor data today with
      date := today } : DayRecord).completedHabits habitID = false := hnotin
  simp only [Bool.false_eq_true, if_false, hcc]
  rfl

theorem handleUncomplete_found_eq (today habitID : Int) (data : AppData)
    (hf : (FindHabitByID data habitID).isNone = false) :
    HandleCompleteHabit today habitID true data
      = setHist data today (uncompleteRecOf data today habitID) := by
  unfold HandleCompleteHabit
  rw [if_neg (by rw [hf]; simp)]
  simp only [if_true]
  rfl

/-- C6 (amended): provided the habit id is not already in today's completed
set, completing and then uncompleting it returns the day's completed set to
its original contents (whether or not the habit exists). -/
theorem completeThenUncomplete_amended (today habitID : Int) (data : AppData)
    (hnotin : containsInt (completedSetOn data today) habitID = false) :
    completedSetOn (HandleCompleteHabit today habitID true
        (HandleCompleteHabit today habitID false data)) today
      = completedSetOn data today := by
  unfold completedSetOn at hnotin ⊢
  by_cases hf : (FindHabitByID data habitID).isNone = true
  · rw [show HandleCompleteHabit today habitID false data = data by
      unfold HandleCompleteHabit; rw [if_pos hf]]
    rw [show HandleCompleteHabit today habitID true data = data by
      unfold HandleCompleteHabit; rw [if_pos hf]]
  · have hf2 : (FindHabitByID data habitID).isNone = false := Bool.eq_false_iff.2 hf
    rw [handleComplete_found_eq today habitID data hf2 hnotin]
    have hf3 : (FindHabitByID (setHist data today (completeRecOf data today habitID))
        habitID).isNone = false := by
      rw [findHabit_setHist]; exact hf2
    rw [handleUncomplete_found_eq today habitID _ hf3]
    rw [dayRecFor_setHist]
    show ((dayRecFor (setHist data today (completeRecOf data today habitID)) today).completedHabits.filter
        (fun id => id != habitID)) = (dayRecFor data today).completedHabits
    rw [dayRecFor_setHist]
    show (((dayRecFor data today).completedHabits ++ [habitID]).filter
        (fun id => id != habitID)) = (dayRecFor data today).completedHabits
    rw [List.filter_append, filter_ne_of_not_containsInt _ _ hnotin]
    simp

/-- Witness for amended C6: a habit not yet completed today, toggled on and
off, leaves the original (singleton-free) completed set intact. -/
theorem completeThenUncomplete_amended_witness :
    completedSetOn (HandleCompleteHabit 0 1 true
        (HandleCompleteHabit 0 1 false oneHabitAppData)) 0
      = completedSetOn oneHabitAppData 0 :=
  completeThenUncomplete_amended 0 1 oneHabitAppData (by decide)

/-- The loop condition of `GetStreakForHabit`: the day has a record and the
record's completed set contains the habit. -/
def completedOn (hist : List (Int × DayRecord)) (habitID : Int) (day : Int) : Bool :=
  match histGet hist day with
  | none => false
  | some dr => containsInt dr.completedHabits habitID

/-- The backward-walking loop of `GetStreakForHabit`.  The Go loop is
unbounded (`for { ... }`), so it is modelled with explicit fuel;
`getStreakForHabit_terminates` shows any fuel of at least
`history.length + 1` gives the same result, i.e. the loop always exits
within that many iterations. -/
def streakLoop (hist : List (Int × DayRecord)) (habitID : Int) : Int → Nat → Nat
  | _, 0 => 0
  | t, fuel + 1 =>
    if completedOn hist habitID t then streakLoop hist habitID (t - 1) fuel + 1 else 0

/-- Go `GetStreakForHabit` from logic.go: count consecutive completed days
walking backward from yesterday (`today - 1`); today itself is excluded. -/
def GetStreakForHabit (today : Int) (data : AppData) (habitID : Int) : Nat :=
  streakLoop data.history habitID (today - 1) (data.history.length + 1)

theorem histGet_mem_keys (hist : List (Int × DayRecord)) (d : Int) (dr : DayRecord)
    (h : histGet hist d = some dr) : d ∈ hist.map Prod.fst := by
  unfold histGet at h
  cases hfind : hist.find? (fun p => p.1 == d) with
  | none => rw [hfind] at h; simp at h
  | some p =>
    have hp := List.find?_some hfind
    have hmem := List.mem_of_find?_eq_some hfind
    have hpd : p.1 = d := by simpa using hp
    exact hpd ▸ List.mem_map_of_mem Prod.fst hmem

theorem completedOn_mem_keys (hist : List (Int × DayRecord)) (hid day : Int)
    (h : completedOn hist hid day = true) : day ∈ hist.map Prod.fst := by
  unfold completedOn at h
  cases hg : histGet hist day with
  | none => rw [hg] at h; simp at h
  | some dr => exact histGet_mem_keys hist day dr hg

theorem all_completed_le_length (hist : List (Int × DayRecord)) (hid : Int) (t : Int)
    (N : Nat) (hall : ∀ i : Nat, i < N → completedOn hist hid (t - i) = true) :
    N ≤ hist.length := by
  have hinj : Function.Injective (fun k : Nat => t - (k : Int)) := by
    intro a b hab
    simp only at hab
    omega
  have hnd : ((List.range N).map (fun k : Nat => t - (k : Int))).Nodup :=
    (List.nodup_range N).map hinj
  have hsub : ((List.range N).map (fun k : Nat => t - (k : Int)))
      ⊆ hist.map Prod.fst := by
    intro x hx
    obtain ⟨k, hk, rfl⟩ := List.mem_map.1 hx
    exact completedOn_mem_keys hist hid _ (hall k (List.mem_range.1 hk))
  have h1 : ((List.range N).map (fun k : Nat => t - (k : Int))).toFinset.card = N := by
    rw [List.toFinset_card_of_nodup hnd]
    simp
  have h2 : ((List.range N).map (fun k : Nat => t - (k : Int))).toFinset
      ⊆ (hist.map Prod.fst).toFinset := by
    intro x hx
    rw [List.mem_toFinset] at hx ⊢
    exact hsub hx
  have h3 := Finset.card_le_card h2
  have h4 := List.toFinset_card_le (hist.map Prod.fst)
  rw [h1] at h3
  simp only [List.length_map] at h4
  omega

theorem exists_incomplete (hist : List (Int × DayRecord)) (hid : Int) (t : Int) :
    ∃ k : Nat, k ≤ hist.length ∧ completedOn hist hid (t - k) = false := by
  by_contra hcon
  push_neg at hcon
  have hall : ∀ i : Nat, i < hist.length + 1 → completedOn hist hid (t - i) = true := by
    intro i hi
    have hne := hcon i (by omega)
    cases hcc : completedOn hist hid (t - i) with
    | true => rfl
    | false => exact absurd hcc hne
  have := all_completed_le_length hist hid t (hist.length + 1) hall
  omega

theorem streakLoop_eq (hist : List (Int × DayRecord)) (hid : Int) (N : Nat) :
    ∀ (t : Int) (fuel : Nat), N < fuel →
      (∀ i : Nat, i < N → completedOn hist hid (t - i) = true) →
      completedOn hist hid (t - N) = false →
      streakLoop hist hid t fuel = N := by
  induction N with
  | zero =>
    intro t fuel hfuel hall hN
    cases fuel with
    | zero => omega
    | succ f =>
      simp only [streakLoop]
      rw [show (t - ((0:Nat):Int)) = t by simp] at hN
      simp [hN]
  | succ N ih =>
    intro t fuel hfuel hall hN
    cases fuel with
    | zero => omega
    | succ f =>
      have h0 : completedOn hist hid t = true := by
        have := hall 0 (Nat.succ_pos N)
        simpa using this
      simp only [streakLoop, h0, if_true]
      have htail : streakLoop hist hid (t - 1) f = N := by
        apply ih (t - 1) f (by omega)
        · intro i hi
          have := hall (i + 1) (by omega)
          rw [show t - ((i + 1 : Nat) : Int) = t - 1 - i by push_cast; ring] at this
          exact this
        · rw [show t - 1 - (N : Int) = t - ((N + 1 : Nat) : Int) by push_cast; ring]
          exact hN
      rw [htail]

/-- C7: `GetStreakForHabit` returns 0 when yesterday's record is absent or
lacks the habit, and returns N when the N days immediately preceding today
are all completed for the habit while the (N+1)-th day back is not. -/
theorem getStreakForHabit_spec (today : Int) (data : AppData) (hid : Int) (N : Nat) :
    (completedOn data.history hid (today - 1) = false →
      GetStreakForHabit today data hid = 0) ∧
    ((∀ i : Nat, i < N → completedOn data.history hid (today - 1 - i) = true) →
      completedOn data.history hid (today - 1 - N) = false →
      GetStreakForHabit today data hid = N) := by
  constructor
  · intro h
    unfold GetStreakForHabit
    apply streakLoop_eq data.history hid 0 (today - 1) _ (by omega)
    · intro i hi
      omega
    · simpa using h
  · intro hall hN
    have hle : N ≤ data.history.length := all_completed_le_length _ hid _ N hall
    unfold GetStreakForHabit
    exact streakLoop_eq data.history hid N (today - 1) _ (by omega) hall hN

/-- A day record marking habit 1 complete on the given day. -/
def doneRec (d : Int) : DayRecord :=
  { date := d, completedHabits := [1], weekReviewDone := false,
    penaltyAppliedForHabits := [] }

/-- A store with a 2-day streak recorded for habit 1 on days 4 and 5. -/
def streakAppData : AppData :=
  { habits := [{ id := 1, name := "a", quantity := 5, unit := "u", createdAt := 0 }],
    history := [(5, doneRec 5), (4, doneRec 4)],
    lastWeekReview := none, createdAt := none }

/-- Witness for C7: the 2-day streak on days 4 and 5 counts as 2 when today
is day 6. -/
theorem getStreakForHabit_spec_witness :
    GetStreakForHabit 6 streakAppData 1 = 2 :=
  (getStreakForHabit_spec 6 streakAppData 1 2).2
    (by intro i hi; interval_cases i <;> decide) (by decide)

/-- C10: the streak walk terminates — its result is bounded by the number of
history entries, and any fuel of at least `history.length + 1` yields the
same value (the Go loop exits within that many iterations). -/
theorem getStreakForHabit_terminates (today : Int) (data : AppData) (hid : Int) :
    GetStreakForHabit today data hid ≤ data.history.length ∧
    (∀ fuel : Nat, data.history.length + 1 ≤ fuel →
      streakLoop data.history hid (today - 1) fuel = GetStreakForHabit today data hid) := by
  obtain ⟨k, hk, hkc⟩ := exists_incomplete data.history hid (today - 1)
  have hex : ∃ n : Nat, completedOn data.history hid (today - 1 - n) = false := ⟨k, hkc⟩
  have hNle : Nat.find hex ≤ k := Nat.find_le hkc
  have hNfalse : completedOn data.history hid (today - 1 - (Nat.find hex : Int)) = false :=
    Nat.find_spec hex
  have hall : ∀ i : Nat, i < Nat.find hex →
      completedOn data.history hid (today - 1 - i) = true := by
    intro i hi
    have hne := Nat.find_min hex hi
    cases hcc : completedOn data.history hid (today - 1 - i) with
    | true => rfl
    | false => exact absurd hcc hne
  have hmain : streakLoop data.history hid (today - 1) (data.history.length + 1)
      = Nat.find hex :=
    streakLoop_eq data.history hid (Nat.find hex) (today - 1) _ (by omega) hall hNfalse
  constructor
  · unfold GetStreakForHabit
    rw [hmain]
    omega
  · intro fuel hf
    unfold GetStreakForHabit
    rw [hmain]
    exact streakLoop_eq data.history hid (Nat.find hex) (today - 1) fuel (by omega) hall hNfalse

/-- Witness for C10 on the concrete 2-entry store. -/
theorem getStreakForHabit_terminates_witness :
    streakLoop streakAppData.history 1 (6 - 1) 50 = GetStreakForHabit 6 streakAppData 1 :=
  (getStreakForHabit_terminates 6 streakAppData 1).2 50 (by decide)

/-- Model of `strings.TrimSpace`: strip leading and trailing whitespace.  Modelled
structurally over the character list so that it evaluates on literals
(Lean's `String.trim` is defined by well-founded recursion and does not
reduce definitionally). -/
def trimSpace (s : String) : String :=
  String.mk (((s.data.dropWhile Char.isWhitespace).reverse.dropWhile
    Char.isWhitespace).reverse)

/-- Go `NextHabitID` from logic.go: (max existing id, or 0 if none) + 1. -/
def NextHabitID (data : AppData) : Int :=
  (data.habits.foldl (fun m h => if h.id > m then h.id else m) 0) + 1

/-- Go `HandleAddHabit` from handlers.go, state transition only.  The form's
quantity string is modelled by `qty? : Option Int`: `some n` when the field
is non-empty and parses as the integer n, `none` when empty or unparseable.
An empty trimmed name aborts without mutating state; a missing or
non-positive quantity silently falls back to the default 5; an empty unit
falls back to "units". -/
def HandleAddHabit (name : String) (qty? : Option Int) (unit : String) (now : Int)
    (data : AppData) : AppData :=
  if trimSpace name = "" then data
  else
    let qty : Int :=
      match qty? with
      | some n => if n > 0 then n else 5
      | none => 5
    let unit2 := if trimSpace unit = "" then "units" else trimSpace unit
    { data with habits := data.habits ++
        [{ id := NextHabitID data, name := trimSpace name, quantity := qty, unit := unit2,
           createdAt := now }] }

/-- Replace the first habit with the given id by `f` of it (the Go code
mutates through the pointer returned by `FindHabitByID`, the first match). -/
def updateFirstHabit (f : Habit → Habit) : List Habit → Int → List Habit
  | [], _ => []
  | h :: t, id => if h.id == id then f h :: t else h :: updateFirstHabit f t id

/-- The per-habit update `HandleEditHabit` performs through the habit
pointer: always set the (trimmed) name; set the quantity only when the form
value parses and is positive; set the unit only when non-empty after
trimming. -/
def editHabitFn (name : String) (qty? : Option Int) (unit : String) (h : Habit) : Habit :=
  let h1 := { h with name := trimSpace name }
  let h2 :=
    match qty? with
    | some n => if n > 0 then { h1 with quantity := n } else h1
    | none => h1
  if trimSpace unit = "" then h2 else { h2 with unit := trimSpace unit }

/-- Go `HandleEditHabit` from handlers.go, state transition only: requires a
non-empty trimmed name and an existing habit id, then applies `editHabitFn`
to the first habit with that id. -/
def HandleEditHabit (habitID : Int) (name : String) (qty? : Option Int) (unit : String)
    (data : AppData) : AppData :=
  if trimSpace name = "" then data
  else if (FindHabitByID data habitID).isNone then data
  else { data with
    habits := updateFirstHabit (editHabitFn name qty? unit) data.habits habitID }

theorem editHabitFn_quantity (name : String) (qty? : Option Int) (unit : String)
    (h : Habit) (hq : 1 ≤ h.quantity) :
    1 ≤ (editHabitFn name qty? unit h).quantity := by
  unfold editHabitFn
  cases qty? with
  | none =>
    by_cases hu : trimSpace unit = "" <;> simp [hu, hq]
  | some n =>
    by_cases hn : n > 0 <;> by_cases hu : trimSpace unit = "" <;> simp [hn, hu, hq] <;> omega

theorem applyMissPenalty_ge_one (h : Habit) (hq : 1 ≤ h.quantity) :
    1 ≤ (ApplyMissPenalty h).quantity := by
  unfold ApplyMissPenalty
  split_ifs with h1 h2
  · exact hq
  · show 1 ≤ h.quantity - 2
    omega
  · show 1 ≤ h.quantity - 1
    omega

theorem processMissesLoop_mem (dr : DayRecord) (hs : List Habit) :
    ∀ h2 ∈ (processMissesLoop dr hs).1, ∃ h ∈ hs, h2 = h ∨ h2 = ApplyMissPenalty h := by
  induction hs generalizing dr with
  | nil => simp [processMissesLoop]
  | cons h t ih =>
    intro h2 h2mem
    by_cases hc : missQualifies dr h = true
    · have hres : (processMissesLoop dr (h :: t)).1
          = ApplyMissPenalty h ::
            (processMissesLoop { dr with penaltyAppliedForHabits :=
              dr.penaltyAppliedForHabits ++ [h.id] } t).1 := by
        simp only [processMissesLoop, hc, if_true]
      rw [hres] at h2mem
      rcases List.mem_cons.1 h2mem with h2eq | h2mem2
      · exact ⟨h, List.mem_cons_self h t, Or.inr h2eq⟩
      · obtain ⟨h3, h3mem, h3eq⟩ := ih _ h2 h2mem2
        exact ⟨h3, List.mem_cons_of_mem h h3mem, h3eq⟩
    · have hcf : missQualifies dr h = false := Bool.eq_false_iff.2 hc
      have hres : (processMissesLoop dr (h :: t)).1
          = h :: (processMissesLoop dr t).1 := by
        simp only [processMissesLoop, hcf, Bool.false_eq_true, if_false]
      rw [hres] at h2mem
      rcases List.mem_cons.1 h2mem with h2eq | h2mem2
      · exact ⟨h, List.mem_cons_self h t, Or.inl h2eq⟩
      · obtain ⟨h3, h3mem, h3eq⟩ := ih dr h2 h2mem2
        exact ⟨h3, List.mem_cons_of_mem h h3mem, h3eq⟩

theorem updateFirstHabit_mem (f : Habit → Habit) (hs : List Habit) (id : Int) :
    ∀ h2 ∈ updateFirstHabit f hs id, h2 ∈ hs ∨ ∃ h ∈ hs, h2 = f h := by
  induction hs with
  | nil => simp [updateFirstHabit]
  | cons h t ih =>
    intro h2 h2mem
    by_cases hid : (h.id == id) = true
    · rw [show updateFirstHabit f (h :: t) id = f h :: t by
        simp only [updateFirstHabit, hid, if_true]] at h2mem
      rcases List.mem_cons.1 h2mem with h2eq | h2mem2
      · exact Or.inr ⟨h, List.mem_cons_self h t, h2eq⟩
      · exact Or.inl (List.mem_cons_of_mem h h2mem2)
    · have hid2 : (h.id == id) = false := Bool.eq_false_iff.2 hid
      rw [show updateFirstHabit f (h :: t) id = h :: updateFirstHabit f t id by
        simp only [updateFirstHabit, hid2, Bool.false_eq_true, if_false]] at h2mem
      rcases List.mem_cons.1 h2mem with h2eq | h2mem2
      · exact Or.inl (h2eq ▸ List.mem_cons_self h t)
      · rcases ih h2 h2mem2 with hmem | ⟨h3, h3mem, h3eq⟩
        · exact Or.inl (List.mem_cons_of_mem h hmem)
        · exact Or.inr ⟨h3, List.mem_cons_of_mem h h3mem, h3eq⟩

/-- C8: starting from a state where every habit's quantity is ≥ 1, the
miss-penalty rule (both one application and the whole yesterday pass), the
week review, add-habit and edit-habit all preserve that every habit's
quantity is ≥ 1. -/
theorem quantity_floor_invariant (yd today now habitID : Int) (name unit : String)
    (qty? : Option Int) (hb : Habit) (data : AppData)
    (hInv : ∀ h ∈ data.habits, 1 ≤ h.quantity) :
    (1 ≤ hb.quantity → 1 ≤ (ApplyMissPenalty hb).quantity) ∧
    (∀ h ∈ (ProcessYesterdayMisses yd data).habits, 1 ≤ h.quantity) ∧
    (∀ h ∈ (CompleteWeekReview today data).habits, 1 ≤ h.quantity) ∧
    (∀ h ∈ (HandleAddHabit name qty? unit now data).habits, 1 ≤ h.quantity) ∧
    (∀ h ∈ (HandleEditHabit habitID name qty? unit data).habits, 1 ≤ h.quantity) := by
  refine ⟨applyMissPenalty_ge_one hb, ?_, ?_, ?_, ?_⟩
  · intro h hmem
    rw [processYesterdayMisses_eq] at hmem
    have hmem2 : h ∈ (processMissesLoop (dayRecFor data yd) data.habits).1 := hmem
    obtain ⟨h0, h0mem, h0eq⟩ := processMissesLoop_mem (dayRecFor data yd) data.habits h hmem2
    rcases h0eq with rfl | rfl
    · exact hInv _ h0mem
    · exact applyMissPenalty_ge_one _ (hInv _ h0mem)
  · intro h hmem
    have hmem2 : h ∈ data.habits.map (fun h0 => { h0 with quantity := h0.quantity + 1 }) := hmem
    obtain ⟨h0, h0mem, rfl⟩ := List.mem_map.1 hmem2
    have := hInv h0 h0mem
    show 1 ≤ h0.quantity + 1
    omega
  · intro h hmem
    unfold HandleAddHabit at hmem
    by_cases hname : trimSpace name = ""
    · rw [if_pos hname] at hmem
      exact hInv h hmem
    · rw [if_neg hname] at hmem
      simp only [List.mem_append, List.mem_singleton] at hmem
      rcases hmem with hmem | rfl
      · exact hInv h hmem
      · cases qty? with
        | none =>
          show (1:Int) ≤ 5
          omega
        | some n =>
          show (1:Int) ≤ if n > 0 then n else 5
          split_ifs <;> omega
  · intro h hmem
    unfold HandleEditHabit at hmem
    by_cases hname : trimSpace name = ""
    · rw [if_pos hname] at hmem
      exact hInv h hmem
    · rw [if_neg hname] at hmem
      by_cases hfind : (FindHabitByID data habitID).isNone = true
      · rw [if_pos hfind] at hmem
        exact hInv h hmem
      · rw [if_neg hfind] at hmem
        have hmem2 : h ∈ updateFirstHabit (editHabitFn name qty? unit)
            data.habits habitID := hmem
        rcases updateFirstHabit_mem _ data.habits habitID h hmem2 with hmem3 | ⟨h0, h0mem, rfl⟩
        · exact hInv h hmem3
        · exact editHabitFn_quantity name qty? unit h0 (hInv h0 h0mem)

/-- Witness for C8 on the concrete one-habit store (quantity 2 ≥ 1). -/
theorem quantity_floor_invariant_witness :
    1 ≤ (ApplyMissPenalty { id := 1, name := "a", quantity := 2, unit := "u", createdAt := 0 }).quantity :=
  (quantity_floor_invariant 0 0 0 1 "n" "u" none
    { id := 1, name := "a", quantity := 2, unit := "u", createdAt := 0 }
    oneHabitAppData (by decide)).1 (by decide)

/-- Counterexample to C9: supplying the non-positive quantity 0 to add-habit
does not produce an error and does mutate the stored state — the habit is
added anyway with the default quantity 5. -/
theorem nonPositiveQty_counterexample :
    HandleAddHabit "x" (some 0) "u" 0 emptyAppData ≠ emptyAppData := by
  intro h
  have hlen := congrArg (fun d => d.habits.length) h
  rw [show (fun d : AppData => d.habits.length)
      (HandleAddHabit "x" (some 0) "u" 0 emptyAppData) = 1 from rfl] at hlen
  rw [show (fun d : AppData => d.habits.length) emptyAppData = 0 from rfl] at hlen
  exact absurd hlen (by omega)

/-- C9 (amended): a non-positive quantity is silently tolerated, not a
validation error — add-habit behaves exactly as if the quantity field were
absent (default 5, habit still added) and edit-habit leaves the stored
quantity unchanged; only an empty name aborts without mutating state. -/
theorem nonPositiveQty_amended (name unit : String) (now habitID n : Int)
    (qty? : Option Int) (data : AppData) (hn : n ≤ 0) :
    HandleAddHabit name (some n) unit now data = HandleAddHabit name none unit now data ∧
    HandleEditHabit habitID name (some n) unit data
      = HandleEditHabit habitID name none unit data ∧
    (trimSpace name = "" → HandleAddHabit name qty? unit now data = data ∧
      HandleEditHabit habitID name qty? unit data = data) := by
  have hnp : ¬ (n > 0) := by omega
  refine ⟨?_, ?_, ?_⟩
  · unfold HandleAddHabit
    simp [hnp]
  · unfold HandleEditHabit editHabitFn
    simp [hnp]
  · intro hname
    constructor
    · unfold HandleAddHabit
      rw [if_pos hname]
    · unfold HandleEditHabit
      rw [if_pos hname]

/-- Witness for amended C9: quantity 0 on add-habit equals the default path. -/
theorem nonPositiveQty_amended_witness :
    HandleAddHabit "x" (some 0) "u" 0 emptyAppData
      = HandleAddHabit "x" none "u" 0 emptyAppData :=
  (nonPositiveQty_amended "x" "u" 0 1 0 none emptyAppData (by omega)).1

end Crescendo
